import Mathlib

set_option maxHeartbeats 1000000

namespace PintosProof

/-
Shallow embedding of the pintos-team6 concurrency/process core:
  * lib/kernel/list.c   -- ordered intrusive list (modelled as Lean lists)
  * threads/synch.c     -- semaphores (src/unnamed/part_000)
  * userprog/process.c  -- fork handshake, process_wait, segment validation
  * userprog/syscall.c  -- pointer and file-descriptor validation
-/

universe u

variable {α : Type u}

/-- list.c list_insert_ordered: scan from the front for the first element e
with less(elem, e); insert elem just before it (at the end if none). -/
def list_insert_ordered (less : α → α → Bool) : List α → α → List α
  | [], x => [x]
  | e :: l, x => if less x e then x :: e :: l else e :: list_insert_ordered less l x

/-- Comparator used throughout: a strict weak order represented by its key
projection into Nat; less a b holds when the key of a is smaller. -/
def lessKey (key : α → Nat) (a b : α) : Bool := decide (key a < key b)

/-- list.c find_end_of_run: splits off the maximal nondecreasing prefix (run)
of the list; returns (run, remainder). The run of a nonempty list is nonempty. -/
def find_end_of_run (key : α → Nat) : List α → List α × List α
  | [] => ([], [])
  | [a] => ([a], [])
  | a :: b :: t =>
    if lessKey key b a then ([a], b :: t)
    else
      let p := find_end_of_run key (b :: t)
      (a :: p.1, p.2)

/-- list.c inplace_merge: merges two sorted ranges; advances the first range
while its front is not greater than the second range's front (stable). -/
def inplace_merge (key : α → Nat) : List α → List α → List α
  | [], B => B
  | a :: A, [] => a :: A
  | a :: A, b :: B =>
    if !lessKey key b a then a :: inplace_merge key A (b :: B)
    else b :: inplace_merge key (a :: A) B
termination_by A B => A.length + B.length
decreasing_by
  all_goals (simp; try omega)

/-- list.c list_sort inner for-loop (one pass): repeatedly locate two adjacent
maximal runs, merge them, and continue after the second run; returns the
new list together with output_run_cnt, the number of output runs. -/
def sort_pass (key : α → Nat) : List α → List α × Nat
  | [] => ([], 0)
  | a :: l =>
    match h : (find_end_of_run key (a :: l)).2 with
    | [] => (a :: l, 1)
    | b :: t =>
      let q := sort_pass key (find_end_of_run key (b :: t)).2
      (inplace_merge key (find_end_of_run key (a :: l)).1 (find_end_of_run key (b :: t)).1
          ++ q.1,
       q.2 + 1)
termination_by l => l.length
decreasing_by
  have hb : ∀ (x : α) (xs : List α),
      ((find_end_of_run key (x :: xs)).2).length ≤ xs.length := by
    intro x xs
    induction xs generalizing x with
    | nil => simp [find_end_of_run]
    | cons y ys ih =>
      by_cases hxy : lessKey key y x
      · simp [find_end_of_run, hxy]
      · simp only [find_end_of_run, hxy, Bool.false_eq_true, if_false]
        exact le_trans (ih y) (Nat.le_succ _)
  have h1 := hb a l
  rw [h] at h1
  have h2 := hb b t
  simp only [List.length_cons] at h1 ⊢
  omega

/-- Proof-level view of a pass: the decomposition of a list into its maximal
nondecreasing runs. -/
def runsOf (key : α → Nat) : List α → List (List α)
  | [] => []
  | a :: l =>
    (find_end_of_run key (a :: l)).1 :: runsOf key (find_end_of_run key (a :: l)).2
termination_by l => l.length
decreasing_by
  have hb : ∀ (x : α) (xs : List α),
      ((find_end_of_run key (x :: xs)).2).length ≤ xs.length := by
    intro x xs
    induction xs generalizing x with
    | nil => simp [find_end_of_run]
    | cons y ys ih =>
      by_cases hxy : lessKey key y x
      · simp [find_end_of_run, hxy]
      · simp only [find_end_of_run, hxy, Bool.false_eq_true, if_false]
        exact le_trans (ih y) (Nat.le_succ _)
  have h1 := hb a l
  simp only [List.length_cons]
  omega

/-- Proof-level view of a pass: merging adjacent runs pairwise. -/
def mergePairs (key : α → Nat) : List (List α) → List (List α)
  | [] => []
  | [r] => [r]
  | r1 :: r2 :: rs => inplace_merge key r1 r2 :: mergePairs key rs

/-- Number of maximal nondecreasing runs in a list. -/
def runCount (key : α → Nat) (l : List α) : Nat := (runsOf key l).length

/-- list.c list_sort outer do-while loop: repeat passes while the previous
pass produced more than one output run.  The fuel argument bounds the number
of passes; list_sort supplies enough fuel (the list length dominates the
run count, which strictly decreases every repeated pass). -/
def sort_loop (key : α → Nat) : Nat → List α → List α
  | 0, l => l
  | fuel + 1, l =>
    if 1 < (sort_pass key l).2 then sort_loop key fuel (sort_pass key l).1
    else (sort_pass key l).1

/-- list.c list_sort: natural iterative merge sort. -/
def list_sort (key : α → Nat) (l : List α) : List α := sort_loop key l.length l

/-- Nondecreasing with respect to the key (the sortedness the comparator
induces): every adjacent pair is in order. -/
def KeySorted (key : α → Nat) (l : List α) : Prop :=
  List.Chain' (fun a b => key a ≤ key b) l

/-- list.c list_max: linear scan keeping the current maximum; replaces it only
when the candidate is strictly greater. -/
def list_max (key : α → Nat) : List α → Option α
  | [] => none
  | a :: l => some (l.foldl (fun mx e => if lessKey key mx e then e else mx) a)

/-- list.c list_min: linear scan keeping the current minimum; replaces it only
when the candidate is strictly smaller. -/
def list_min (key : α → Nat) : List α → Option α
  | [] => none
  | a :: l => some (l.foldl (fun mn e => if lessKey key e mn then e else mn) a)

/-- A thread blocked on a semaphore, reduced to the fields the wait queue
discipline reads: its scheduling priority and its identity. -/
structure Waiter where
  priority : Nat
  tid : Nat
deriving DecidableEq

/-- Modelled from the spec: cmp_priority (threads/thread.c, not under src/)
orders waiters by scheduling priority, highest first. -/
def cmp_priority (a b : Waiter) : Bool := decide (b.priority < a.priority)

/-- synch.c struct semaphore: a counter plus the ordered waiter list. -/
structure Semaphore where
  value : Nat
  waiters : List Waiter
deriving DecidableEq

/-- synch.c sema_init. -/
def sema_init (v : Nat) : Semaphore := { value := v, waiters := [] }

/-- synch.c sema_try_down: decrement and succeed only when the counter is
positive; otherwise leave the semaphore untouched and fail.  Never enqueues. -/
def sema_try_down (s : Semaphore) : Semaphore × Bool :=
  if 0 < s.value then ({ s with value := s.value - 1 }, true) else (s, false)

/-- synch.c sema_up: if any waiter is enqueued, dequeue the front of the list
and unblock it (returned in the second component); always increment. -/
def sema_up (s : Semaphore) : Semaphore × Option Waiter :=
  match s.waiters with
  | [] => ({ s with value := s.value + 1 }, none)
  | w :: rest => ({ value := s.value + 1, waiters := rest }, some w)

/-- synch.c sema_down, blocking branch: the caller is enqueued into the waiter
list via list_insert_ordered with cmp_priority. -/
def sema_enqueue (s : Semaphore) (w : Waiter) : Semaphore :=
  { s with waiters := list_insert_ordered cmp_priority s.waiters w }

/-- Enqueue a whole arrival sequence of blocked waiters, in arrival order. -/
def sema_enqueue_all (s : Semaphore) (ws : List Waiter) : Semaphore :=
  ws.foldl sema_enqueue s

/-- The order in which n calls to sema_up wake the blocked waiters. -/
def wake_sequence : Semaphore → Nat → List Waiter
  | _, 0 => []
  | s, n + 1 =>
    match sema_up s with
    | (s', some w) => w :: wake_sequence s' n
    | (s', none) => wake_sequence s' n

/-- Iterated sema_try_down (n calls, keeping the resulting semaphore). -/
def try_down_iter (s : Semaphore) : Nat → Semaphore
  | 0 => s
  | n + 1 => (sema_try_down (try_down_iter s n)).1

/-- process.c struct child_status: one record per forked child, owned by the
parent's child list.  For the blocking case of process_wait, exit_status
denotes the status the exiting child publishes before signalling wait_sema. -/
structure ChildStatus where
  tid : Nat
  exit_status : Int
  has_exited : Bool
  has_been_waited : Bool
deriving DecidableEq

/-- Result of process_wait: the returned status, the child list afterwards,
and whether the caller blocked on the record's wait semaphore. -/
structure WaitResult where
  ret : Int
  children : List ChildStatus
  blocked : Bool
deriving DecidableEq

/-- process.c process_wait, the scan over the caller's child list: on the
first record with the requested tid, return -1 if it was already waited on;
otherwise mark it waited, block until the child has exited, then remove and
free the record and return its published exit status. -/
def process_wait_loop (child_tid : Nat) : List ChildStatus → WaitResult
  | [] => { ret := -1, children := [], blocked := false }
  | cs :: rest =>
    if cs.tid = child_tid then
      if cs.has_been_waited then { ret := -1, children := cs :: rest, blocked := false }
      else { ret := cs.exit_status, children := rest, blocked := !cs.has_exited }
    else
      let r := process_wait_loop child_tid rest
      { ret := r.ret, children := cs :: r.children, blocked := r.blocked }

/-- process.c process_wait: the reserved "no child" sentinel id 0 fails
immediately; otherwise scan the child list. -/
def process_wait (child_tid : Nat) (children : List ChildStatus) : WaitResult :=
  if child_tid = 0 then { ret := -1, children := children, blocked := false }
  else process_wait_loop child_tid children

/-- TID_ERROR, the error sentinel process_fork returns. -/
def TID_ERROR : Int := -1

/-- What the child side of the fork handshake (__do_fork) does to the shared
state: on successful duplication it frees the handshake block, sets the
parent's fork_succ flag and signals fork_sema, then resumes user code; on any
duplication failure it signals failure without freeing and exits with -1. -/
structure DoForkResult where
  freedByChild : Nat
  forkSucc : Bool
  childExited : Bool
deriving DecidableEq

/-- process.c __do_fork, abstracted over whether the address-space and
file-descriptor duplication succeeds. -/
def do_fork_model (dupOk : Bool) : DoForkResult :=
  if dupOk then { freedByChild := 1, forkSucc := true, childExited := false }
  else { freedByChild := 0, forkSucc := false, childExited := true }

/-- Bookkeeping of one process_fork call: whether the handshake block was
allocated, how many times each party freed it, and the parent's return. -/
structure ForkTrace where
  allocated : Bool
  freedByParent : Nat
  freedByChild : Nat
  parentReturn : Int
deriving DecidableEq

/-- process.c process_fork: allocate the handshake block (f_thread page);
free it and fail if thread_create fails; otherwise block on fork_sema until
the child signals, then free the block and fail if fork_succ is false, else
return the child's tid.  The child's sema_up happens-before the parent's
resumption, so the handshake is sequentialized child-then-parent. -/
def process_fork_model (allocOk threadCreateOk dupOk : Bool) (childTid : Int) : ForkTrace :=
  if !allocOk then
    { allocated := false, freedByParent := 0, freedByChild := 0, parentReturn := TID_ERROR }
  else if !threadCreateOk then
    { allocated := true, freedByParent := 1, freedByChild := 0, parentReturn := TID_ERROR }
  else
    let child := do_fork_model dupOk
    if !child.forkSucc then
      { allocated := true, freedByParent := 1, freedByChild := child.freedByChild,
        parentReturn := TID_ERROR }
    else
      { allocated := true, freedByParent := 0, freedByChild := child.freedByChild,
        parentReturn := childTid }

/-- A user-supplied pointer argument, reduced to the three properties the
dispatcher's checks read: null?, mapped in the caller's pml4?, below the
kernel base? -/
structure UPtr where
  isNull : Bool
  mapped : Bool
  inUserSpace : Bool
deriving DecidableEq

/-- syscall.c check_pml4_addr: false when the pointer is null, unmapped in the
caller's address space, or not a user address. -/
def check_pml4_addr (p : UPtr) : Bool :=
  !(p.isNull || !p.mapped || !p.inUserSpace)

/-- A pointer the spec calls invalid: null, unmapped, or not a user address. -/
def invalid_ptr (p : UPtr) : Bool :=
  p.isNull || !p.mapped || !p.inUserSpace

/-- How a syscall resolved its validation phase: the process was terminated
via sys_exit(status); or a value was returned to the dispatcher; or
validation passed and control proceeds into the file operation proper. -/
inductive SysOutcome where
  | exited (status : Int)
  | ret (v : Int)
  | proceed
deriving DecidableEq

/-- syscall.c sys_exec: validate the command-line pointer, then allocate a
kernel copy (exit -1 when either fails); on load failure also exit -1. -/
def sys_exec_model (p : UPtr) (allocOk : Bool) : SysOutcome :=
  if !check_pml4_addr p then .exited (-1)
  else if !allocOk then .exited (-1)
  else .proceed

/-- syscall.c sys_create: validate the path pointer, then create. -/
def sys_create_model (p : UPtr) : SysOutcome :=
  if !check_pml4_addr p then .exited (-1) else .proceed

/-- syscall.c sys_remove: validate the path pointer, then remove. -/
def sys_remove_model (p : UPtr) : SysOutcome :=
  if !check_pml4_addr p then .exited (-1) else .proceed

/-- syscall.c sys_open: only null / non-user pointers are rejected (the pml4
mapping is not checked); then scan fds 2..63 for a free slot, returning -1
when the table is full. -/
def sys_open_model (p : UPtr) (tableFull : Bool) : SysOutcome :=
  if p.isNull || !p.inUserSpace then .exited (-1)
  else if tableFull then .ret (-1)
  else .proceed

/-- syscall.c sys_read: fd 0 reads from the console into the buffer without
any pointer validation; otherwise the fd-range check precedes the buffer
check, and an unallocated slot returns -1. -/
def sys_read_model (fd : Int) (p : UPtr) (size : Int) (slotAllocated : Bool) : SysOutcome :=
  if fd = 0 then .ret size
  else if fd < 2 || fd > 64 then .exited (-1)
  else if !check_pml4_addr p then .exited (-1)
  else if !slotAllocated then .ret (-1)
  else .proceed

/-- syscall.c sys_write: a null or non-user buffer is reported as return
value -1; a non-null user buffer that is unmapped exits with -1; fd 0 returns
-1, fd 1 writes to the console, out-of-range fds exit; the slot is then used
without a null check. -/
def sys_write_model (fd : Int) (p : UPtr) (size : Int) : SysOutcome :=
  if p.isNull || !p.inUserSpace then .ret (-1)
  else if !check_pml4_addr p then .exited (-1)
  else if fd = 0 then .ret (-1)
  else if fd = 1 then .ret size
  else if fd < 2 || fd > 64 then .exited (-1)
  else .proceed

/-- syscall.c sys_filesize: fds outside 2..64 exit; an unallocated slot
returns 0; note fd = 64 passes the check and indexes past the 64-entry
descriptor table. -/
def sys_filesize_model (fd : Int) (slotAllocated : Int → Bool) : SysOutcome :=
  if fd < 2 || fd > 64 then .exited (-1)
  else if !slotAllocated fd then .ret 0
  else .proceed

/-- syscall.c sys_seek: fds outside 2..64 exit; an unallocated slot returns. -/
def sys_seek_model (fd : Int) (slotAllocated : Int → Bool) : SysOutcome :=
  if fd < 2 || fd > 64 then .exited (-1)
  else if !slotAllocated fd then .ret 0
  else .proceed

/-- syscall.c sys_tell: fds outside 2..64 exit; an unallocated slot returns 0. -/
def sys_tell_model (fd : Int) (slotAllocated : Int → Bool) : SysOutcome :=
  if fd < 2 || fd > 64 then .exited (-1)
  else if !slotAllocated fd then .ret 0
  else .proceed

/-- syscall.c sys_close: the only fd syscall with the fd >= 64 bound, and the
only one that exits on an unallocated slot. -/
def sys_close_model (fd : Int) (slotAllocated : Int → Bool) : SysOutcome :=
  if fd < 2 || fd ≥ 64 then .exited (-1)
  else if !slotAllocated fd then .exited (-1)
  else .proceed

/-- Page size (vaddr.h PGSIZE); PGMASK selects an address's in-page offset. -/
def PGSIZE : Nat := 4096

/-- Modelled from the spec: the user/kernel address-space boundary KERN_BASE
(include/threads/vaddr.h, not under src/); is_user_vaddr checks against it. -/
def KERN_BASE : Nat := 0x8004000000

/-- Modelled from the spec: vaddr.h is_user_vaddr, true for addresses below
the kernel base (the user address space). -/
def is_user_vaddr (va : Nat) : Bool := decide (va < KERN_BASE)

/-- 2^64, the wrap-around modulus of the uint64_t address arithmetic. -/
def U64 : Nat := 2 ^ 64

/-- An ELF64 program header, reduced to the fields validate_segment reads. -/
structure Phdr where
  p_offset : Nat
  p_vaddr : Nat
  p_filesz : Nat
  p_memsz : Nat
deriving DecidableEq

/-- process.c validate_segment, with the uint64_t additions taken mod 2^64. -/
def validate_segment (ph : Phdr) (fileLen : Nat) : Bool :=
  if ph.p_offset % PGSIZE ≠ ph.p_vaddr % PGSIZE then false
  else if ph.p_offset > fileLen then false
  else if ph.p_memsz < ph.p_filesz then false
  else if ph.p_memsz = 0 then false
  else if !is_user_vaddr ph.p_vaddr then false
  else if !is_user_vaddr ((ph.p_vaddr + ph.p_memsz) % U64) then false
  else if (ph.p_vaddr + ph.p_memsz) % U64 < ph.p_vaddr then false
  else if ph.p_vaddr < PGSIZE then false
  else true

/-- The spec's acceptance conditions for a loadable segment, stated in the
spec's own terms over exact (non-wrapping) arithmetic. -/
def SegmentAcceptable (ph : Phdr) (fileLen : Nat) : Prop :=
  ph.p_offset % PGSIZE = ph.p_vaddr % PGSIZE ∧
  ph.p_offset ≤ fileLen ∧
  ph.p_filesz ≤ ph.p_memsz ∧
  ph.p_memsz ≠ 0 ∧
  ph.p_vaddr < KERN_BASE ∧
  ph.p_vaddr + ph.p_memsz < KERN_BASE ∧
  PGSIZE ≤ ph.p_vaddr

/-- The executable-header fields the load() sanity check reads: whether the
identity/type/machine/version/phentsize comparisons pass, and e_phnum. -/
structure EhdrInfo where
  identOk : Bool
  e_phnum : Nat
deriving DecidableEq

/-- process.c load, header check: rejects when any identity field mismatches
or when e_phnum > 1024. -/
def load_ehdr_ok (h : EhdrInfo) : Bool := h.identOk && !(decide (h.e_phnum > 1024))

/-- process.c load, overall success: header check and then the segment and
stack phases. -/
def load_model (h : EhdrInfo) (segmentsOk stackOk : Bool) : Bool :=
  load_ehdr_ok h && segmentsOk && stackOk

/-- process.c process_exec: on load failure returns -1 to the caller; on
success control transfers via do_iret and process_exec never returns. -/
def process_exec_ret (loadSuccess : Bool) : Option Int :=
  if loadSuccess then none else some (-1)

/-- A waiter list ordered the way cmp_priority keeps it: nonincreasing
priority from front to back. -/
def PrioSorted (l : List Waiter) : Prop :=
  List.Chain' (fun a b => b.priority ≤ a.priority) l

/- ===================== Theorems ===================== -/

theorem try_down_iter_state (N k : Nat) :
    try_down_iter (sema_init N) k = sema_init (N - k) := by
  induction k with
  | zero => rfl
  | succ k ih =>
    rw [try_down_iter, ih]
    by_cases h : 0 < N - k
    · simp only [sema_try_down, sema_init, h, if_pos]
      have : N - k - 1 = N - (k + 1) := by omega
      simp [this]
    · have h0 : N - k = 0 := by omega
      have h1 : N - (k + 1) = 0 := by omega
      simp [sema_try_down, sema_init, h0, h1]

/-- C4: sema_try_down succeeds exactly when the counter is positive, in which
case it decrements it by one; it never touches the waiter list and on failure
leaves the whole semaphore unchanged; a semaphore initialized to N admits N
consecutive successful try_down calls and the (N+1)-th fails. -/
theorem sema_try_down_spec (s : Semaphore) (N k : Nat) (hk : k < N) :
    ((sema_try_down s).2 = true ↔ 0 < s.value) ∧
    ((sema_try_down s).2 = true → (sema_try_down s).1.value + 1 = s.value) ∧
    (sema_try_down s).1.waiters = s.waiters ∧
    ((sema_try_down s).2 = false → (sema_try_down s).1 = s) ∧
    (sema_try_down (try_down_iter (sema_init N) k)).2 = true ∧
    (sema_try_down (try_down_iter (sema_init N) N)).2 = false := by
  refine ⟨?_, ?_, ?_, ?_, ?_, ?_⟩
  · by_cases h : 0 < s.value <;> simp [sema_try_down, h]
  · intro h
    by_cases h0 : 0 < s.value
    · simp [sema_try_down, h0]; omega
    · simp [sema_try_down, h0] at h
  · by_cases h : 0 < s.value <;> simp [sema_try_down, h]
  · intro h
    by_cases h0 : 0 < s.value
    · simp [sema_try_down, h0] at h
    · simp [sema_try_down, h0]
  · rw [try_down_iter_state]
    have h : 0 < N - k := by omega
    simp [sema_try_down, sema_init, h]
  · rw [try_down_iter_state]
    simp [sema_try_down, sema_init]

/-- Witness for C4 at N = 3, k = 1. -/
theorem sema_try_down_spec_witness :
    (sema_try_down (try_down_iter (sema_init 3) 1)).2 = true ∧
    (sema_try_down (try_down_iter (sema_init 3) 3)).2 = false :=
  ⟨(sema_try_down_spec (sema_init 3) 3 1 (by decide)).2.2.2.2.1,
   (sema_try_down_spec (sema_init 3) 3 1 (by decide)).2.2.2.2.2⟩

/-- C1 counterexample: when the child's duplication fails (allocation and
thread creation succeeded), the handshake block is freed by the parent
(process.c line 102) and not by the child, contradicting the claimed
child-only release discipline. -/
theorem fork_block_parent_frees_on_failure :
    (process_fork_model true true false 5).freedByParent = 1 ∧
    (process_fork_model true true false 5).freedByChild = 0 := by
  constructor <;> rfl

/-- C1 (amended): on every path the handshake block is freed exactly once if
it was allocated (and never otherwise); the child frees it exactly on the
fully successful path, while on the thread-creation-failure and
duplication-failure paths the parent frees it and returns TID_ERROR. -/
theorem fork_block_single_release (a t d : Bool) (tid : Int) :
    ((process_fork_model a t d tid).allocated = true →
      (process_fork_model a t d tid).freedByParent
        + (process_fork_model a t d tid).freedByChild = 1) ∧
    ((process_fork_model a t d tid).allocated = false →
      (process_fork_model a t d tid).freedByParent
        + (process_fork_model a t d tid).freedByChild = 0) ∧
    (a = true → t = true → d = true →
      (process_fork_model a t d tid).freedByChild = 1 ∧
      (process_fork_model a t d tid).freedByParent = 0 ∧
      (process_fork_model a t d tid).parentReturn = tid) ∧
    (a = true → t = true → d = false →
      (process_fork_model a t d tid).freedByParent = 1 ∧
      (process_fork_model a t d tid).freedByChild = 0 ∧
      (process_fork_model a t d tid).parentReturn = TID_ERROR) ∧
    (a = true → t = false →
      (process_fork_model a t d tid).freedByParent = 1 ∧
      (process_fork_model a t d tid).freedByChild = 0 ∧
      (process_fork_model a t d tid).parentReturn = TID_ERROR) ∧
    (a = false →
      (process_fork_model a t d tid).allocated = false ∧
      (process_fork_model a t d tid).parentReturn = TID_ERROR) := by
  cases a <;> cases t <;> cases d <;>
    simp [process_fork_model, do_fork_model, TID_ERROR]

/-- Witness for C1 (amended) on the success path with child tid 7. -/
theorem fork_block_single_release_witness :
    (process_fork_model true true true 7).freedByChild = 1 ∧
    (process_fork_model true true true 7).freedByParent = 0 ∧
    (process_fork_model true true true 7).parentReturn = 7 :=
  (fork_block_single_release true true true 7).2.2.1 rfl rfl rfl

/-- C5 counterexample: sys_write with a null buffer reports -1 as a return
value (syscall.c line 299) instead of terminating the process. -/
theorem sys_write_null_ptr_returns :
    sys_write_model 5 { isNull := true, mapped := false, inUserSpace := false } 10
      = SysOutcome.ret (-1) ∧
    sys_write_model 5 { isNull := true, mapped := false, inUserSpace := false } 10
      ≠ SysOutcome.exited (-1) := by
  exact ⟨rfl, by decide⟩

/-- C5 (amended): exec, create and remove terminate the caller with exit
status -1 on every invalid pointer; read does so whenever fd is not 0, while
fd 0 skips validation entirely; write reports a null or non-user pointer as
return value -1 and terminates only for a non-null user pointer that is
unmapped; open terminates on null or non-user pointers but does not check the
mapping, so an unmapped user pointer proceeds into the open path. -/
theorem pointer_validation_spec (p : UPtr) (allocOk : Bool) (fd size : Int)
    (slot : Bool) (tableFull : Bool) :
    (invalid_ptr p = true →
      sys_exec_model p allocOk = .exited (-1) ∧
      sys_create_model p = .exited (-1) ∧
      sys_remove_model p = .exited (-1)) ∧
    (invalid_ptr p = true → fd ≠ 0 → sys_read_model fd p size slot = .exited (-1)) ∧
    (p.isNull = false → p.inUserSpace = true → p.mapped = false →
      sys_write_model fd p size = .exited (-1)) ∧
    ((p.isNull = true ∨ p.inUserSpace = false) → sys_write_model fd p size = .ret (-1)) ∧
    ((p.isNull = true ∨ p.inUserSpace = false) → sys_open_model p tableFull = .exited (-1)) ∧
    (p.isNull = false → p.inUserSpace = true → tableFull = false →
      sys_open_model p tableFull = .proceed) ∧
    sys_read_model 0 p size slot = .ret size := by
  obtain ⟨n, m, u⟩ := p
  refine ⟨?_, ?_, ?_, ?_, ?_, ?_, ?_⟩
  · intro h
    cases n <;> cases m <;> cases u <;>
      simp_all [invalid_ptr, sys_exec_model, sys_create_model, sys_remove_model,
        check_pml4_addr]
  · intro h hfd
    have hchk : check_pml4_addr ⟨n, m, u⟩ = false := by
      cases n <;> cases m <;> cases u <;> simp_all [invalid_ptr, check_pml4_addr]
    rw [sys_read_model]
    rw [if_neg hfd]
    by_cases hr : fd < 2 ∨ fd > 64
    · rw [if_pos (by simpa using hr)]
    · rw [if_neg (by simpa using hr), hchk]
      simp
  · intro h1 h2 h3
    subst h1; subst h2; subst h3
    simp [sys_write_model, check_pml4_addr]
  · intro h
    rcases h with h | h <;> subst h <;> simp [sys_write_model]
  · intro h
    rcases h with h | h <;> subst h <;> simp [sys_open_model]
  · intro h1 h2 h3
    subst h1; subst h2; subst h3
    simp [sys_open_model]
  · simp [sys_read_model]

/-- Witness for C5 (amended) at a null pointer and fd 3. -/
theorem pointer_validation_spec_witness :
    sys_create_model { isNull := true, mapped := false, inUserSpace := false }
      = SysOutcome.exited (-1) ∧
    sys_read_model 3 { isNull := true, mapped := false, inUserSpace := false } 9 false
      = SysOutcome.exited (-1) :=
  ⟨((pointer_validation_spec ⟨true, false, false⟩ true 3 9 false false).1 (by decide)).2.1,
   (pointer_validation_spec ⟨true, false, false⟩ true 3 9 false false).2.1
     (by decide) (by decide)⟩

/-- C6: evaluation of the fd-taking syscalls at the divergent inputs.
fd = 64 lies outside the claimed valid range 2..63, yet filesize, read, seek,
tell and write all pass their `fd > 64` bound check and index slot 64 of the
64-entry descriptor table; an unallocated in-range slot makes filesize and
tell return 0 and read return -1 rather than terminating; only close both
uses the `fd >= 64` bound and terminates on an unallocated slot. -/
theorem fd_range_code_divergence :
    sys_filesize_model 64 (fun _ => false) = .ret 0 ∧
    sys_filesize_model 64 (fun _ => true) = .proceed ∧
    sys_filesize_model 5 (fun _ => false) = .ret 0 ∧
    sys_read_model 64 { isNull := false, mapped := true, inUserSpace := true } 10 true
      = .proceed ∧
    sys_seek_model 64 (fun _ => true) = .proceed ∧
    sys_tell_model 5 (fun _ => false) = .ret 0 ∧
    sys_write_model 64 { isNull := false, mapped := true, inUserSpace := true } 10
      = .proceed ∧
    sys_close_model 64 (fun _ => true) = .exited (-1) ∧
    sys_close_model 5 (fun _ => false) = .exited (-1) := by
  refine ⟨rfl, rfl, rfl, rfl, rfl, rfl, rfl, rfl, rfl⟩

/-- C7: a loadable segment passes validate_segment exactly when the spec's
acceptance conditions hold (same in-page offset, offset inside the file,
memsz at least filesz, nonzero size, range inside user space without
wrapping, start outside page zero); and an image whose program-header count
exceeds the 1024 limit (such as phnum = 2000) fails the header check, so
load fails and process_exec returns -1. -/
theorem validate_segment_iff (ph : Phdr) (fileLen : Nat) :
    validate_segment ph fileLen = true ↔
      (ph.p_offset % PGSIZE = ph.p_vaddr % PGSIZE ∧
       ph.p_offset ≤ fileLen ∧
       ph.p_filesz ≤ ph.p_memsz ∧
       ph.p_memsz ≠ 0 ∧
       ph.p_vaddr < KERN_BASE ∧
       (ph.p_vaddr + ph.p_memsz) % U64 < KERN_BASE ∧
       ph.p_vaddr ≤ (ph.p_vaddr + ph.p_memsz) % U64 ∧
       PGSIZE ≤ ph.p_vaddr) := by
  unfold validate_segment is_user_vaddr
  split_ifs with h1 h2 h3 h4 h5 h6 h7 h8 <;>
    simp only [Bool.not_eq_true', decide_eq_false_iff_not, decide_eq_true_eq,
      false_iff, true_iff, not_lt, not_le, ne_eq, not_not] at * <;>
    omega

/-- C7: a loadable segment passes validate_segment exactly when the spec's
acceptance conditions hold (same in-page offset, offset inside the file,
memsz at least filesz, nonzero size, range inside user space without
wrapping, start outside page zero); and an image whose program-header count
exceeds the 1024 limit (such as phnum = 2000) fails the header check, so
load fails and process_exec returns -1. -/
theorem segment_validation_spec (ph : Phdr) (fileLen : Nat) (h : EhdrInfo)
    (segsOk stackOk : Bool) (hv : ph.p_vaddr < U64) (hm : ph.p_memsz < U64) :
    (validate_segment ph fileLen = true ↔ SegmentAcceptable ph fileLen) ∧
    (1024 < h.e_phnum → load_ehdr_ok h = false) ∧
    (1024 < h.e_phnum → process_exec_ret (load_model h segsOk stackOk) = some (-1)) := by
  refine ⟨?_, ?_, ?_⟩
  · rw [validate_segment_iff]
    unfold SegmentAcceptable
    unfold U64 KERN_BASE PGSIZE at *
    by_cases hlt : ph.p_vaddr + ph.p_memsz < 2 ^ 64
    · rw [Nat.mod_eq_of_lt hlt]
      omega
    · have hm2 : (ph.p_vaddr + ph.p_memsz) % 2 ^ 64
          = ph.p_vaddr + ph.p_memsz - 2 ^ 64 := by
        rw [Nat.mod_eq_sub_mod (le_of_not_lt hlt)]
        exact Nat.mod_eq_of_lt (by omega)
      rw [hm2]
      omega
  · intro hn
    have hd : decide (h.e_phnum > 1024) = true := decide_eq_true hn
    simp [load_ehdr_ok, hd]
  · intro hn
    have hd : decide (h.e_phnum > 1024) = true := decide_eq_true hn
    simp [process_exec_ret, load_model, load_ehdr_ok, hd]

/-- Witness for C7 at a concrete valid-looking header and phnum = 2000. -/
theorem segment_validation_spec_witness :
    (validate_segment ⟨0, 4096, 10, 100⟩ 50 = true ↔
      SegmentAcceptable ⟨0, 4096, 10, 100⟩ 50) ∧
    load_ehdr_ok ⟨true, 2000⟩ = false ∧
    process_exec_ret (load_model ⟨true, 2000⟩ true true) = some (-1) :=
  ⟨(segment_validation_spec ⟨0, 4096, 10, 100⟩ 50 ⟨true, 2000⟩ true true
      (by decide) (by decide)).1,
   (segment_validation_spec ⟨0, 4096, 10, 100⟩ 50 ⟨true, 2000⟩ true true
      (by decide) (by decide)).2.1 (by decide),
   (segment_validation_spec ⟨0, 4096, 10, 100⟩ 50 ⟨true, 2000⟩ true true
      (by decide) (by decide)).2.2 (by decide)⟩

theorem wait_loop_not_found (t : Nat) (children : List ChildStatus)
    (h : ∀ cs ∈ children, cs.tid ≠ t) :
    process_wait_loop t children = { ret := -1, children := children, blocked := false } := by
  induction children with
  | nil => rfl
  | cons cs rest ih =>
    have h1 : cs.tid ≠ t := h cs (by simp)
    rw [process_wait_loop, if_neg h1, ih (fun x hx => h x (List.mem_cons_of_mem _ hx))]

theorem wait_loop_found_waited (t : Nat) (pre : List ChildStatus) (cs : ChildStatus)
    (post : List ChildStatus) (hpre : ∀ x ∈ pre, x.tid ≠ t) (htid : cs.tid = t)
    (hw : cs.has_been_waited = true) :
    process_wait_loop t (pre ++ cs :: post)
      = { ret := -1, children := pre ++ cs :: post, blocked := false } := by
  induction pre with
  | nil => simp [process_wait_loop, htid, hw]
  | cons y ys ih =>
    have h1 : y.tid ≠ t := hpre y (by simp)
    rw [List.cons_append, process_wait_loop, if_neg h1,
      ih (fun x hx => hpre x (List.mem_cons_of_mem _ hx))]

theorem wait_loop_success (t : Nat) (pre : List ChildStatus) (cs : ChildStatus)
    (post : List ChildStatus) (hpre : ∀ x ∈ pre, x.tid ≠ t) (htid : cs.tid = t)
    (hw : cs.has_been_waited = false) :
    process_wait_loop t (pre ++ cs :: post)
      = { ret := cs.exit_status, children := pre ++ post, blocked := !cs.has_exited } := by
  induction pre with
  | nil => simp [process_wait_loop, htid, hw]
  | cons y ys ih =>
    have h1 : y.tid ≠ t := hpre y (by simp)
    rw [List.cons_append, process_wait_loop, if_neg h1,
      ih (fun x hx => hpre x (List.mem_cons_of_mem _ hx))]
    rfl

/-- C2: process_wait returns -1 immediately, without blocking, when the id is
the reserved sentinel 0, when no record in the caller's child list carries
the id, or when the first matching record was already waited on; otherwise it
returns the matching record's published exit status, removes (and frees) that
record from the child list, and a second wait on the same id returns -1. -/
theorem process_wait_spec (t : Nat) (children : List ChildStatus) :
    process_wait 0 children = { ret := -1, children := children, blocked := false } ∧
    (t ≠ 0 → (∀ x ∈ children, x.tid ≠ t) →
      process_wait t children = { ret := -1, children := children, blocked := false }) ∧
    (∀ pre cs post, t ≠ 0 → children = pre ++ cs :: post → (∀ x ∈ pre, x.tid ≠ t) →
      cs.tid = t → cs.has_been_waited = true →
      process_wait t children = { ret := -1, children := children, blocked := false }) ∧
    (∀ pre cs post, t ≠ 0 → children = pre ++ cs :: post → (∀ x ∈ pre, x.tid ≠ t) →
      cs.tid = t → cs.has_been_waited = false →
      process_wait t children
        = { ret := cs.exit_status, children := pre ++ post, blocked := !cs.has_exited } ∧
      ((∀ x ∈ pre ++ post, x.tid ≠ t) →
        process_wait t (pre ++ post)
          = { ret := -1, children := pre ++ post, blocked := false })) := by
  refine ⟨?_, ?_, ?_, ?_⟩
  · rw [process_wait, if_pos rfl]
  · intro ht h
    rw [process_wait, if_neg ht, wait_loop_not_found t children h]
  · intro pre cs post ht hdec hpre htid hw
    subst hdec
    rw [process_wait, if_neg ht, wait_loop_found_waited t pre cs post hpre htid hw]
  · intro pre cs post ht hdec hpre htid hw
    subst hdec
    constructor
    · rw [process_wait, if_neg ht, wait_loop_success t pre cs post hpre htid hw]
    · intro hall
      rw [process_wait, if_neg ht, wait_loop_not_found t (pre ++ post) hall]

/-- Witness for C2: a child list with an unrelated record and a reaped
record; waiting on tid 5 returns 42 and removes the record, then a second
wait on tid 5 returns -1. -/
theorem process_wait_spec_witness :
    process_wait 5 [⟨1, 0, true, false⟩, ⟨5, 42, true, false⟩]
      = { ret := 42, children := [⟨1, 0, true, false⟩], blocked := false } ∧
    process_wait 5 [⟨1, 0, true, false⟩]
      = { ret := -1, children := [⟨1, 0, true, false⟩], blocked := false } := by
  have h := (process_wait_spec 5 [⟨1, 0, true, false⟩, ⟨5, 42, true, false⟩]).2.2.2
    [⟨1, 0, true, false⟩] ⟨5, 42, true, false⟩ [] (by decide) rfl (by decide) rfl rfl
  exact ⟨h.1, h.2 (by decide)⟩

/-- C10: on every error path of process_wait (sentinel id 0, id not present
in the caller's child list, or first matching record already waited on) the
child list is returned exactly as it was: no record is removed or freed and
no has-been-waited flag is newly set, and the caller does not block. -/
theorem process_wait_error_paths_pure (t : Nat) (children : List ChildStatus)
    (h : t = 0 ∨ (∀ x ∈ children, x.tid ≠ t) ∨
      ∃ pre cs post, children = pre ++ cs :: post ∧ (∀ x ∈ pre, x.tid ≠ t) ∧
        cs.tid = t ∧ cs.has_been_waited = true) :
    process_wait t children = { ret := -1, children := children, blocked := false } := by
  rcases h with h0 | hnone | ⟨pre, cs, post, hdec, hpre, htid, hw⟩
  · subst h0
    rw [process_wait, if_pos rfl]
  · by_cases ht : t = 0
    · subst ht; rw [process_wait, if_pos rfl]
    · rw [process_wait, if_neg ht, wait_loop_not_found t children hnone]
  · subst hdec
    by_cases ht : t = 0
    · subst ht; rw [process_wait, if_pos rfl]
    · rw [process_wait, if_neg ht, wait_loop_found_waited t pre cs post hpre htid hw]

theorem find_congr_mem (p q : α → Bool) (l : List α) (h : ∀ x ∈ l, p x = q x) :
    l.find? p = l.find? q := by
  induction l with
  | nil => rfl
  | cons a t ih =>
    have ha := h a (by simp)
    rw [List.find?_cons, List.find?_cons, ha]
    cases hq : q a
    · simp only [cond_false]
      exact ih (fun x hx => h x (List.mem_cons_of_mem _ hx))
    · simp only [cond_true]

theorem foldl_max_find (key : α → Nat) (a : α) (l : List α) :
    some (l.foldl (fun mx e => if lessKey key mx e then e else mx) a) =
      (a :: l).find? (fun e => (a :: l).all (fun x => decide (key x ≤ key e))) := by
  induction l generalizing a with
  | nil =>
    simp [List.find?_cons]
  | cons b t ih =>
    rw [List.foldl_cons]
    by_cases hab : lessKey key a b
    · -- key a < key b : accumulator becomes b
      have hab' : key a < key b := by simpa [lessKey] using hab
      rw [if_pos hab]
      have hP : ∀ e, ((a :: b :: t).all (fun x => decide (key x ≤ key e)))
          = ((b :: t).all (fun x => decide (key x ≤ key e))) := by
        intro e
        simp only [List.all_cons]
        by_cases hbe : key b ≤ key e
        · have hae : key a ≤ key e := le_trans (le_of_lt hab') hbe
          simp [hae, hbe]
        · simp [hbe]
      have hPa : ((a :: b :: t).all (fun x => decide (key x ≤ key a))) = false := by
        simp only [List.all_cons, Bool.and_eq_false_iff]
        right; left
        simp [Nat.not_le.mpr hab']
      rw [List.find?_cons]
      simp only [hPa, cond_false]
      rw [find_congr_mem _ _ (b :: t) (fun x _ => hP x)]
      exact ih b
    · -- key b ≤ key a : accumulator stays a
      have hba : key b ≤ key a := Nat.le_of_not_lt (by simpa [lessKey] using hab)
      rw [if_neg hab]
      have hQ : ∀ e, ((a :: b :: t).all (fun x => decide (key x ≤ key e)))
          = (decide (key b ≤ key e) && (a :: t).all (fun x => decide (key x ≤ key e))) := by
        intro e
        simp only [List.all_cons]
        by_cases hae : key a ≤ key e <;> by_cases hbe : key b ≤ key e <;>
          simp [hae, hbe]
      by_cases hPa : ((a :: t).all (fun x => decide (key x ≤ key a))) = true
      · -- a is maximal: both find? return a
        rw [List.find?_cons]
        have h2 : ((a :: b :: t).all (fun x => decide (key x ≤ key a))) = true := by
          rw [hQ a]
          simp [hba, hPa]
        simp only [h2, cond_true]
        rw [ih a, List.find?_cons]
        simp only [hPa, cond_true]
      · have hPa' : ((a :: t).all (fun x => decide (key x ≤ key a))) = false :=
          Bool.eq_false_iff.mpr hPa
        have htall : (t.all (fun x => decide (key x ≤ key a))) = false := by
          have h3 := hPa'
          simp only [List.all_cons] at h3
          simpa using h3
        have hPa2 : ((a :: b :: t).all (fun x => decide (key x ≤ key a))) = false := by
          rw [hQ a]
          simp [hPa']
        have hPb : ((a :: b :: t).all (fun x => decide (key x ≤ key b))) = false := by
          rcases Nat.lt_or_ge (key b) (key a) with hlt | hge
          · simp only [List.all_cons, Bool.and_eq_false_iff]
            left
            simp [Nat.not_le.mpr hlt]
          · have heq : key b = key a := Nat.le_antisymm hba hge
            simp only [List.all_cons, Bool.and_eq_false_iff]
            right; right
            rw [heq]
            exact htall
        rw [List.find?_cons]
        simp only [hPa2, cond_false]
        rw [List.find?_cons]
        simp only [hPb, cond_false]
        rw [ih a, List.find?_cons]
        simp only [hPa', cond_false]
        refine find_congr_mem _ _ t (fun x _ => ?_)
        rw [hQ x]
        by_cases hax : key a ≤ key x
        · have hbx : key b ≤ key x := le_trans hba hax
          simp [hbx]
        · have h4 : ((a :: t).all (fun y => decide (key y ≤ key x))) = false := by
            simp only [List.all_cons, Bool.and_eq_false_iff]
            left
            simp [hax]
          simp [h4]

theorem foldl_min_find (key : α → Nat) (a : α) (l : List α) :
    some (l.foldl (fun mn e => if lessKey key e mn then e else mn) a) =
      (a :: l).find? (fun e => (a :: l).all (fun x => decide (key e ≤ key x))) := by
  induction l generalizing a with
  | nil =>
    simp [List.find?_cons]
  | cons b t ih =>
    rw [List.foldl_cons]
    by_cases hba : lessKey key b a
    · -- key b < key a : accumulator becomes b
      have hba' : key b < key a := by simpa [lessKey] using hba
      rw [if_pos hba]
      have hP : ∀ e, ((a :: b :: t).all (fun x => decide (key e ≤ key x)))
          = ((b :: t).all (fun x => decide (key e ≤ key x))) := by
        intro e
        simp only [List.all_cons]
        by_cases heb : key e ≤ key b
        · have hea : key e ≤ key a := le_trans heb (le_of_lt hba')
          simp [hea, heb]
        · simp [heb]
      have hPa : ((a :: b :: t).all (fun x => decide (key a ≤ key x))) = false := by
        simp only [List.all_cons, Bool.and_eq_false_iff]
        right; left
        simp [Nat.not_le.mpr hba']
      rw [List.find?_cons]
      simp only [hPa, cond_false]
      rw [find_congr_mem _ _ (b :: t) (fun x _ => hP x)]
      exact ih b
    · -- key a ≤ key b : accumulator stays a
      have hab : key a ≤ key b := Nat.le_of_not_lt (by simpa [lessKey] using hba)
      rw [if_neg hba]
      have hQ : ∀ e, ((a :: b :: t).all (fun x => decide (key e ≤ key x)))
          = (decide (key e ≤ key b) && (a :: t).all (fun x => decide (key e ≤ key x))) := by
        intro e
        simp only [List.all_cons]
        by_cases hea : key e ≤ key a <;> by_cases heb : key e ≤ key b <;>
          simp [hea, heb]
      by_cases hPa : ((a :: t).all (fun x => decide (key a ≤ key x))) = true
      · rw [List.find?_cons]
        have h2 : ((a :: b :: t).all (fun x => decide (key a ≤ key x))) = true := by
          rw [hQ a]
          simp [hab, hPa]
        simp only [h2, cond_true]
        rw [ih a, List.find?_cons]
        simp only [hPa, cond_true]
      · have hPa' : ((a :: t).all (fun x => decide (key a ≤ key x))) = false :=
          Bool.eq_false_iff.mpr hPa
        have htall : (t.all (fun x => decide (key a ≤ key x))) = false := by
          have h3 := hPa'
          simp only [List.all_cons] at h3
          simpa using h3
        have hPa2 : ((a :: b :: t).all (fun x => decide (key a ≤ key x))) = false := by
          rw [hQ a]
          simp [hPa']
        have hPb : ((a :: b :: t).all (fun x => decide (key b ≤ key x))) = false := by
          rcases Nat.lt_or_ge (key a) (key b) with hlt | hge
          · simp only [List.all_cons, Bool.and_eq_false_iff]
            left
            simp [Nat.not_le.mpr hlt]
          · have heq : key a = key b := Nat.le_antisymm hab hge
            simp only [List.all_cons, Bool.and_eq_false_iff]
            right; right
            rw [← heq]
            exact htall
        rw [List.find?_cons]
        simp only [hPa2, cond_false]
        rw [List.find?_cons]
        simp only [hPb, cond_false]
        rw [ih a, List.find?_cons]
        simp only [hPa', cond_false]
        refine find_congr_mem _ _ t (fun x _ => ?_)
        rw [hQ x]
        by_cases hxa : key x ≤ key a
        · have hxb : key x ≤ key b := le_trans hxa hab
          simp [hxb]
        · have h4 : ((a :: t).all (fun y => decide (key x ≤ key y))) = false := by
            simp only [List.all_cons, Bool.and_eq_false_iff]
            left
            simp [hxa]
          simp [h4]

/-- C9 counterexample: on a list with two equal-maximal elements, list_max
returns the first one encountered, not the last (the scan replaces the
running maximum only on a strict increase, list.c:805). -/
theorem list_max_tie_returns_first :
    list_max (fun x => x.1) [((5 : Nat), (0 : Nat)), (5, 1)] = some (5, 0) ∧
    ((5, 0) : Nat × Nat) ≠ (5, 1) := by
  exact ⟨rfl, by decide⟩

/-- C9 (amended): on ties both scans keep the earlier element: list_max
returns the first equal-maximal element of the list and list_min the first
equal-minimal one (there is no first/last asymmetry in the code). -/
theorem list_max_min_first_extremal (key : α → Nat) (l : List α) :
    list_max key l = l.find? (fun e => l.all (fun x => decide (key x ≤ key e))) ∧
    list_min key l = l.find? (fun e => l.all (fun x => decide (key e ≤ key x))) := by
  cases l with
  | nil => exact ⟨rfl, rfl⟩
  | cons a t =>
    exact ⟨foldl_max_find key a t, foldl_min_find key a t⟩

/-- Witness for C10: waiting again on an already-waited record changes
nothing. -/
theorem process_wait_error_paths_pure_witness :
    process_wait 9 [⟨9, 7, true, true⟩]
      = { ret := -1, children := [⟨9, 7, true, true⟩], blocked := false } :=
  process_wait_error_paths_pure 9 [⟨9, 7, true, true⟩]
    (Or.inr (Or.inr ⟨[], ⟨9, 7, true, true⟩, [], rfl, by decide, rfl, rfl⟩))

theorem insert_ordered_split (less : α → α → Bool) (l : List α) (x : α) :
    list_insert_ordered less l x
      = l.takeWhile (fun e => !less x e) ++ x :: l.dropWhile (fun e => !less x e) := by
  induction l with
  | nil => simp [list_insert_ordered]
  | cons e t ih =>
    rw [list_insert_ordered]
    by_cases h : less x e
    · have hb : (!less x e) = false := by simp [h]
      simp [h, List.takeWhile_cons, List.dropWhile_cons, hb]
    · have hb : (!less x e) = true := by simp [h]
      simp [h, List.takeWhile_cons, List.dropWhile_cons, hb, ih]

theorem insert_ordered_length (less : α → α → Bool) (l : List α) (x : α) :
    (list_insert_ordered less l x).length = l.length + 1 := by
  induction l with
  | nil => rfl
  | cons e t ih =>
    rw [list_insert_ordered]
    by_cases h : less x e
    · simp [h]
    · simp [h, ih]

theorem prio_sorted_head_bound (e : Waiter) (t : List Waiter)
    (h : PrioSorted (e :: t)) : ∀ x ∈ e :: t, x.priority ≤ e.priority := by
  haveI : IsTrans Waiter (fun a b => b.priority ≤ a.priority) :=
    ⟨fun _ _ _ h1 h2 => le_trans h2 h1⟩
  have hp := List.chain'_iff_pairwise.mp h
  intro x hx
  rcases List.mem_cons.mp hx with rfl | hx'
  · exact le_rfl
  · exact (List.pairwise_cons.mp hp).1 x hx'

theorem insert_ordered_prio_sorted (q : List Waiter) (w : Waiter)
    (h : PrioSorted q) : PrioSorted (list_insert_ordered cmp_priority q w) := by
  induction q with
  | nil => simp [list_insert_ordered, PrioSorted]
  | cons e t ih =>
    rw [list_insert_ordered]
    by_cases hc : cmp_priority w e
    · rw [if_pos hc]
      have hew : e.priority ≤ w.priority := le_of_lt (by simpa [cmp_priority] using hc)
      exact List.Chain'.cons hew h
    · rw [if_neg hc]
      have hwe : w.priority ≤ e.priority :=
        Nat.le_of_not_lt (by simpa [cmp_priority] using hc)
      have hins := ih h.tail
      cases t with
      | nil =>
        simp only [list_insert_ordered]
        exact List.Chain'.cons hwe (List.chain'_singleton w)
      | cons u t' =>
        rw [list_insert_ordered] at hins ⊢
        by_cases hcu : cmp_priority w u
        · rw [if_pos hcu] at hins ⊢
          exact List.Chain'.cons hwe hins
        · rw [if_neg hcu] at hins ⊢
          have heu : u.priority ≤ e.priority := (List.chain'_cons.mp h).1
          exact List.Chain'.cons heu hins

theorem insert_ordered_filter (q : List Waiter) (w : Waiter) (hq : PrioSorted q)
    (p : Nat) :
    (list_insert_ordered cmp_priority q w).filter (fun x => x.priority == p) =
      if w.priority = p then q.filter (fun x => x.priority == p) ++ [w]
      else q.filter (fun x => x.priority == p) := by
  induction q with
  | nil =>
    by_cases hw : w.priority = p
    · simp [list_insert_ordered, List.filter, hw]
    · have hwb : (w.priority == p) = false := by simp [hw]
      simp [list_insert_ordered, List.filter, hw, hwb]
  | cons e t ih =>
    rw [list_insert_ordered]
    by_cases hc : cmp_priority w e
    · rw [if_pos hc]
      have hlt : e.priority < w.priority := by simpa [cmp_priority] using hc
      have hbound := prio_sorted_head_bound e t hq
      by_cases hw : w.priority = p
      · have hnil : (e :: t).filter (fun x => x.priority == p) = [] := by
          rw [List.filter_eq_nil_iff]
          intro x hx
          have hxb := hbound x hx
          simp only [beq_iff_eq]
          omega
        simp [List.filter_cons, hw, hnil]
      · have hwb : (w.priority == p) = false := by simp [hw]
        simp [List.filter_cons, hwb, hw]
    · rw [if_neg hc]
      have ih' := ih hq.tail
      by_cases he : (e.priority == p) = true <;> by_cases hw : w.priority = p <;>
        simp [List.filter_cons, he, hw, ih']

theorem wake_sequence_drains (v : Nat) (ws : List Waiter) :
    wake_sequence { value := v, waiters := ws } ws.length = ws := by
  induction ws generalizing v with
  | nil => rfl
  | cons w rest ih =>
    rw [List.length_cons, wake_sequence]
    simp only [sema_up]
    rw [ih]

theorem enqueue_all_invariant (ws : List Waiter) : ∀ (v : Nat) (q : List Waiter),
    PrioSorted q →
    (sema_enqueue_all { value := v, waiters := q } ws).value = v ∧
    PrioSorted (sema_enqueue_all { value := v, waiters := q } ws).waiters ∧
    (∀ p, ((sema_enqueue_all { value := v, waiters := q } ws).waiters.filter
          (fun w => w.priority == p))
        = q.filter (fun w => w.priority == p) ++ ws.filter (fun w => w.priority == p)) ∧
    (sema_enqueue_all { value := v, waiters := q } ws).waiters.length
      = q.length + ws.length := by
  induction ws with
  | nil =>
    intro v q hq
    exact ⟨rfl, hq, fun p => by simp [sema_enqueue_all], by simp [sema_enqueue_all]⟩
  | cons w ws ih =>
    intro v q hq
    have hstep : sema_enqueue_all { value := v, waiters := q } (w :: ws)
        = sema_enqueue_all
            { value := v, waiters := list_insert_ordered cmp_priority q w } ws := rfl
    have hq' := insert_ordered_prio_sorted q w hq
    obtain ⟨hv, hs, hf, hl⟩ := ih v (list_insert_ordered cmp_priority q w) hq'
    rw [hstep]
    refine ⟨hv, hs, ?_, ?_⟩
    · intro p
      rw [hf p, insert_ordered_filter q w hq p, List.filter_cons]
      by_cases hw : w.priority = p
      · have hwb : (w.priority == p) = true := by simp [hw]
        simp [hw, hwb]
      · have hwb : (w.priority == p) = false := by simp [hw]
        simp [hw, hwb]
    · rw [hl, insert_ordered_length]
      simp only [List.length_cons]
      omega

/-- C3: a waiter enqueued via list_insert_ordered with the priority
comparator is placed before the first existing element the comparator ranks
strictly after it and after every earlier element it does not (so ties land
after existing equal-priority waiters, preserving arrival order); sema_up
dequeues the front of the list; consequently, for any arrival sequence, the
wake order is sorted by nonincreasing priority and, within each priority
level, coincides with the arrival order (FIFO). -/
theorem sema_wait_queue_discipline (less : α → α → Bool) (l : List α) (x : α)
    (v : Nat) (ws : List Waiter) :
    (list_insert_ordered less l x
      = l.takeWhile (fun e => !less x e) ++ x :: l.dropWhile (fun e => !less x e)) ∧
    (∀ (u : Nat) (w : Waiter) (rest : List Waiter),
      sema_up { value := u, waiters := w :: rest }
        = ({ value := u + 1, waiters := rest }, some w)) ∧
    PrioSorted (wake_sequence (sema_enqueue_all (sema_init v) ws) ws.length) ∧
    (∀ p, (wake_sequence (sema_enqueue_all (sema_init v) ws) ws.length).filter
        (fun w => w.priority == p)
      = ws.filter (fun w => w.priority == p)) := by
  obtain ⟨hv, hs, hf, hl⟩ :=
    enqueue_all_invariant ws v [] (by simp [PrioSorted])
  have h0 : sema_init v = { value := v, waiters := [] } := rfl
  rw [h0]
  have hwake : wake_sequence (sema_enqueue_all { value := v, waiters := [] } ws) ws.length
      = (sema_enqueue_all { value := v, waiters := [] } ws).waiters := by
    have hlen : (sema_enqueue_all { value := v, waiters := [] } ws).waiters.length
        = ws.length := by
      rw [hl]; simp
    rw [← hlen]
    exact wake_sequence_drains
      ((sema_enqueue_all { value := v, waiters := [] } ws).value) _
  refine ⟨insert_ordered_split less l x, fun u w rest => rfl, ?_, ?_⟩
  · rw [hwake]; exact hs
  · intro p
    rw [hwake, hf p]
    simp

theorem find_run_snd_le (key : α → Nat) (x : α) (xs : List α) :
    ((find_end_of_run key (x :: xs)).2).length ≤ xs.length := by
  induction xs generalizing x with
  | nil => simp [find_end_of_run]
  | cons y ys ih =>
    by_cases hxy : lessKey key y x
    · simp [find_end_of_run, hxy]
    · simp only [find_end_of_run, hxy, Bool.false_eq_true, if_false]
      exact le_trans (ih y) (Nat.le_succ _)

theorem find_run_append (key : α → Nat) : (l : List α) →
    (find_end_of_run key l).1 ++ (find_end_of_run key l).2 = l
  | [] => rfl
  | [a] => rfl
  | a :: b :: t => by
    rw [find_end_of_run]
    by_cases h : lessKey key b a
    · simp [h]
    · simp only [h, Bool.false_eq_true, if_false]
      have hrec := find_run_append key (b :: t)
      simpa using hrec

theorem find_run_fst_head (key : α → Nat) (b : α) (t : List α) :
    ∃ r, (find_end_of_run key (b :: t)).1 = b :: r := by
  cases t with
  | nil => exact ⟨[], rfl⟩
  | cons c t' =>
    rw [find_end_of_run]
    by_cases h : lessKey key c b
    · simp [h]
    · simp [h]

theorem find_run_fst_sorted (key : α → Nat) : (l : List α) →
    KeySorted key (find_end_of_run key l).1
  | [] => List.chain'_nil
  | [a] => List.chain'_singleton a
  | a :: b :: t => by
    rw [find_end_of_run]
    by_cases h : lessKey key b a
    · simp only [h, if_true]
      exact List.chain'_singleton a
    · simp only [h, Bool.false_eq_true, if_false]
      have hrec := find_run_fst_sorted key (b :: t)
      obtain ⟨r, hr⟩ := find_run_fst_head key b t
      rw [hr] at hrec ⊢
      have hab : key a ≤ key b := Nat.le_of_not_lt (by simpa [lessKey] using h)
      exact List.Chain'.cons hab hrec

theorem find_run_of_sorted (key : α → Nat) : (l : List α) → KeySorted key l →
    find_end_of_run key l = (l, [])
  | [], _ => rfl
  | [a], _ => rfl
  | a :: b :: t, h => by
    rw [find_end_of_run]
    have hab : key a ≤ key b := (List.chain'_cons.mp h).1
    have hless : ¬ lessKey key b a = true := by
      simp only [lessKey, decide_eq_true_eq]
      omega
    rw [if_neg hless, find_run_of_sorted key (b :: t) (List.chain'_cons.mp h).2]


theorem keySorted_tail (key : α → Nat) {a : α} {l : List α}
    (h : KeySorted key (a :: l)) : KeySorted key l := by
  unfold KeySorted at *
  exact h.tail

theorem keySorted_cons' (key : α → Nat) (a : α) (l : List α) :
    KeySorted key (a :: l) ↔ (∀ y ∈ l.head?, key a ≤ key y) ∧ KeySorted key l := by
  unfold KeySorted
  exact List.chain'_cons'

theorem sorted_head_le (key : α → Nat) (a : α) (A : List α)
    (h : KeySorted key (a :: A)) : ∀ x ∈ a :: A, key a ≤ key x := by
  haveI : IsTrans α (fun x y => key x ≤ key y) :=
    ⟨fun _ _ _ h1 h2 => le_trans h1 h2⟩
  unfold KeySorted at h
  have hp := List.chain'_iff_pairwise.mp h
  intro x hx
  rcases List.mem_cons.mp hx with rfl | hx'
  · exact le_rfl
  · exact (List.pairwise_cons.mp hp).1 x hx'

theorem merge_head_cases (key : α → Nat) (A B : List α) (y : α)
    (hy : (inplace_merge key A B).head? = some y) :
    A.head? = some y ∨ B.head? = some y := by
  match A, B with
  | [], B => right; simpa [inplace_merge] using hy
  | a :: A, [] => left; simpa [inplace_merge] using hy
  | a :: A, b :: B =>
    rw [inplace_merge] at hy
    by_cases h : lessKey key b a
    · simp only [h, Bool.not_true, Bool.false_eq_true, if_false] at hy
      right; simpa using hy
    · simp only [h, Bool.not_false, if_true] at hy
      left; simpa using hy

theorem merge_sorted (key : α → Nat) : (A B : List α) → KeySorted key A →
    KeySorted key B → KeySorted key (inplace_merge key A B)
  | [], B, _, hB => by simpa [inplace_merge] using hB
  | a :: A, [], hA, _ => by simpa [inplace_merge] using hA
  | a :: A, b :: B, hA, hB => by
    rw [inplace_merge]
    by_cases h : lessKey key b a
    · simp only [h, Bool.not_true, Bool.false_eq_true, if_false]
      have hrec := merge_sorted key (a :: A) B hA (keySorted_tail key hB)
      rw [keySorted_cons']
      refine ⟨?_, hrec⟩
      intro y hy
      rcases merge_head_cases key (a :: A) B y hy with h1 | h1
      · have hya : a = y := by simpa using h1
        subst hya
        exact le_of_lt (by simpa [lessKey] using h)
      · have hyB : y ∈ B := List.mem_of_mem_head? h1
        exact sorted_head_le key b B hB y (List.mem_cons_of_mem _ hyB)
    · simp only [h, Bool.not_false, if_true]
      have hrec := merge_sorted key A (b :: B) (keySorted_tail key hA) hB
      rw [keySorted_cons']
      refine ⟨?_, hrec⟩
      intro y hy
      rcases merge_head_cases key A (b :: B) y hy with h1 | h1
      · have hyA : y ∈ A := List.mem_of_mem_head? h1
        exact sorted_head_le key a A hA y (List.mem_cons_of_mem _ hyA)
      · have hyb : b = y := by simpa using h1
        subst hyb
        exact Nat.le_of_not_lt (by simpa [lessKey] using h)
termination_by A B => A.length + B.length
decreasing_by
  all_goals simp only [List.length_cons]
  all_goals omega

theorem merge_perm (key : α → Nat) : (A B : List α) →
    (inplace_merge key A B).Perm (A ++ B)
  | [], B => by simp [inplace_merge]
  | a :: A, [] => by simp [inplace_merge]
  | a :: A, b :: B => by
    rw [inplace_merge]
    by_cases h : lessKey key b a
    · simp only [h, Bool.not_true, Bool.false_eq_true, if_false]
      refine List.Perm.trans ((merge_perm key (a :: A) B).cons b) ?_
      exact List.perm_middle.symm
    · simp only [h, Bool.not_false, if_true]
      exact (merge_perm key A (b :: B)).cons a
termination_by A B => A.length + B.length
decreasing_by
  all_goals simp only [List.length_cons]
  all_goals omega

theorem merge_filter (key : α → Nat) (k : Nat) : (A B : List α) →
    KeySorted key A →
    (inplace_merge key A B).filter (fun x => key x == k)
      = A.filter (fun x => key x == k) ++ B.filter (fun x => key x == k)
  | [], B, _ => by simp [inplace_merge]
  | a :: A, [], _ => by simp [inplace_merge]
  | a :: A, b :: B, hA => by
    rw [inplace_merge]
    by_cases h : lessKey key b a
    · simp only [h, Bool.not_true, Bool.false_eq_true, if_false]
      rw [List.filter_cons, merge_filter key k (a :: A) B hA]
      by_cases hbk : (key b == k) = true
      · have hk : key b = k := by simpa using hbk
        have hlt : key b < key a := by simpa [lessKey] using h
        have hnil : (a :: A).filter (fun x => key x == k) = [] := by
          rw [List.filter_eq_nil_iff]
          intro x hx
          have hax := sorted_head_le key a A hA x hx
          simp only [beq_iff_eq]
          omega
        rw [hnil]
        simp [List.filter_cons, hbk]
      · have hbk' : (key b == k) = false := Bool.eq_false_iff.mpr hbk
        simp [List.filter_cons, hbk']
    · simp only [h, Bool.not_false, if_true]
      rw [List.filter_cons,
        merge_filter key k A (b :: B) (keySorted_tail key hA), List.filter_cons]
      by_cases hak : (key a == k) = true <;> simp [hak]
termination_by A B => A.length + B.length
decreasing_by
  all_goals simp only [List.length_cons]
  all_goals omega

theorem runsOf_join (key : α → Nat) : (l : List α) → (runsOf key l).flatten = l
  | [] => by simp [runsOf]
  | a :: l => by
    rw [runsOf]
    rw [List.flatten_cons]
    rw [runsOf_join key ((find_end_of_run key (a :: l)).2)]
    exact find_run_append key (a :: l)
termination_by l => l.length
decreasing_by
  have h1 := find_run_snd_le key a l
  simp only [List.length_cons]
  omega

theorem runsOf_mem (key : α → Nat) : (l : List α) → ∀ r ∈ runsOf key l,
    KeySorted key r ∧ r ≠ []
  | [] => by simp [runsOf]
  | a :: l => by
    rw [runsOf]
    intro r hr
    rcases List.mem_cons.mp hr with rfl | hr'
    · refine ⟨find_run_fst_sorted key (a :: l), ?_⟩
      obtain ⟨r', hr'⟩ := find_run_fst_head key a l
      rw [hr']
      exact List.cons_ne_nil a r'
    · exact runsOf_mem key ((find_end_of_run key (a :: l)).2) r hr'
termination_by l => l.length
decreasing_by
  have h1 := find_run_snd_le key a l
  simp only [List.length_cons]
  omega

theorem runsOf_of_sorted_cons (key : α → Nat) (a : α) (t : List α)
    (h : KeySorted key (a :: t)) : runsOf key (a :: t) = [a :: t] := by
  rw [runsOf, find_run_of_sorted key (a :: t) h]
  simp [runsOf]

theorem runCount_cons (key : α → Nat) (a : α) (l : List α) :
    runCount key (a :: l) = runCount key ((find_end_of_run key (a :: l)).2) + 1 := by
  rw [runCount, runCount, runsOf]
  simp

theorem runCount_nil (key : α → Nat) : runCount key ([] : List α) = 0 := by
  rw [runCount, runsOf]
  rfl

theorem runCount_eq_zero (key : α → Nat) (l : List α) (h : runCount key l = 0) :
    l = [] := by
  cases l with
  | nil => rfl
  | cons a t => rw [runCount_cons] at h; omega

theorem runCount_le_length (key : α → Nat) : (l : List α) →
    runCount key l ≤ l.length
  | [] => by rw [runCount_nil]; exact Nat.le_refl 0
  | a :: l => by
    rw [runCount_cons]
    have h1 := find_run_snd_le key a l
    have h2 := runCount_le_length key ((find_end_of_run key (a :: l)).2)
    simp only [List.length_cons]
    omega
termination_by l => l.length
decreasing_by
  have h1 := find_run_snd_le key a l
  simp only [List.length_cons]
  omega

theorem find_run_cont (key : α → Nat) (x y : α) (t : List α)
    (h : ¬ lessKey key y x = true) :
    (find_end_of_run key (x :: y :: t)).2 = (find_end_of_run key (y :: t)).2 := by
  rw [find_end_of_run]
  simp [h]

theorem runCount_append_sorted (key : α → Nat) : (A B : List α) →
    KeySorted key A → runCount key (A ++ B) ≤ runCount key B + 1
  | [], B, _ => by simp
  | [a], B, _ => by
    cases B with
    | nil =>
      simp only [List.append_nil]
      rw [runCount_cons]
      simp [find_end_of_run, runCount_nil]
    | cons b B' =>
      simp only [List.singleton_append]
      by_cases h : lessKey key b a
      · rw [runCount_cons]
        have : (find_end_of_run key (a :: b :: B')).2 = b :: B' := by
          rw [find_end_of_run, if_pos h]
        rw [this]
      · rw [runCount_cons, find_run_cont key a b B' h, ← runCount_cons]
        omega
  | a :: a' :: A', B, hA => by
    have haa : key a ≤ key a' := (keySorted_cons' key a (a' :: A')).mp hA |>.1 a' rfl
    have h : ¬ lessKey key a' a = true := by
      simp only [lessKey, decide_eq_true_eq]
      omega
    have hstep : runCount key ((a :: a' :: A') ++ B) = runCount key ((a' :: A') ++ B) := by
      simp only [List.cons_append]
      rw [runCount_cons, find_run_cont key a a' (A' ++ B) h, ← runCount_cons]
    rw [hstep]
    exact runCount_append_sorted key (a' :: A') B (keySorted_tail key hA)

theorem runCount_join_sorted (key : α → Nat) : (rs : List (List α)) →
    (∀ r ∈ rs, KeySorted key r) → runCount key rs.flatten ≤ rs.length
  | [], _ => by simp [runCount_nil]
  | r :: rs, h => by
    rw [List.flatten_cons]
    have h1 := runCount_append_sorted key r rs.flatten (h r (by simp))
    have h2 := runCount_join_sorted key rs (fun x hx => h x (by simp [hx]))
    simp only [List.length_cons]
    omega

theorem mergePairs_flatten_perm (key : α → Nat) : (rs : List (List α)) →
    (mergePairs key rs).flatten.Perm rs.flatten
  | [] => List.Perm.refl _
  | [r] => List.Perm.refl _
  | r1 :: r2 :: rs => by
    rw [mergePairs, List.flatten_cons, List.flatten_cons, List.flatten_cons]
    refine List.Perm.trans
      (List.Perm.append (merge_perm key r1 r2) (mergePairs_flatten_perm key rs)) ?_
    rw [List.append_assoc]

theorem mergePairs_mem_sorted (key : α → Nat) : (rs : List (List α)) →
    (∀ r ∈ rs, KeySorted key r) → ∀ r ∈ mergePairs key rs, KeySorted key r
  | [], _ => by simp [mergePairs]
  | [r], h => by simpa [mergePairs] using h
  | r1 :: r2 :: rs, h => by
    rw [mergePairs]
    intro r hr
    rcases List.mem_cons.mp hr with rfl | hr'
    · exact merge_sorted key r1 r2 (h r1 (by simp)) (h r2 (by simp))
    · exact mergePairs_mem_sorted key rs (fun x hx => h x (by simp [hx])) r hr'

theorem mergePairs_length (key : α → Nat) : (rs : List (List α)) →
    (mergePairs key rs).length = (rs.length + 1) / 2
  | [] => by simp [mergePairs]
  | [r] => by simp [mergePairs]
  | r1 :: r2 :: rs => by
    rw [mergePairs]
    simp only [List.length_cons]
    rw [mergePairs_length key rs]
    omega

theorem mergePairs_filter (key : α → Nat) (k : Nat) : (rs : List (List α)) →
    (∀ r ∈ rs, KeySorted key r) →
    (mergePairs key rs).flatten.filter (fun x => key x == k)
      = rs.flatten.filter (fun x => key x == k)
  | [], _ => by simp [mergePairs]
  | [r], _ => by simp [mergePairs]
  | r1 :: r2 :: rs, h => by
    rw [mergePairs, List.flatten_cons, List.flatten_cons, List.flatten_cons]
    rw [List.filter_append, merge_filter key k r1 r2 (h r1 (by simp))]
    rw [mergePairs_filter key k rs (fun x hx => h x (by simp [hx]))]
    simp [List.filter_append, List.append_assoc]

theorem sort_pass_eq (key : α → Nat) : (l : List α) →
    sort_pass key l
      = ((mergePairs key (runsOf key l)).flatten,
         (mergePairs key (runsOf key l)).length)
  | [] => by simp [sort_pass, runsOf, mergePairs]
  | a :: l => by
    rw [sort_pass]
    split
    next heq =>
      have happ := find_run_append key (a :: l)
      rw [heq, List.append_nil] at happ
      rw [runsOf, heq, happ]
      simp [runsOf, mergePairs]
    next b t heq =>
      have hrec := sort_pass_eq key ((find_end_of_run key (b :: t)).2)
      rw [runsOf, heq, runsOf, mergePairs, List.flatten_cons, hrec]
      simp [List.length_cons]
termination_by l => l.length
decreasing_by
  rename_i b t hx hy heq
  have h1 := find_run_snd_le key a l
  rw [heq] at h1
  have h2 := find_run_snd_le key b t
  simp only [List.length_cons] at h1 ⊢
  omega

theorem sort_pass_perm (key : α → Nat) (l : List α) : (sort_pass key l).1.Perm l := by
  rw [sort_pass_eq]
  refine List.Perm.trans (mergePairs_flatten_perm key (runsOf key l)) ?_
  rw [runsOf_join]

theorem sort_pass_cnt (key : α → Nat) (l : List α) :
    (sort_pass key l).2 = (runCount key l + 1) / 2 := by
  rw [sort_pass_eq]
  show (mergePairs key (runsOf key l)).length = (runCount key l + 1) / 2
  rw [mergePairs_length]
  rfl

theorem sort_pass_runCount_le (key : α → Nat) (l : List α) :
    runCount key (sort_pass key l).1 ≤ (sort_pass key l).2 := by
  rw [sort_pass_eq]
  show runCount key (mergePairs key (runsOf key l)).flatten
      ≤ (mergePairs key (runsOf key l)).length
  exact runCount_join_sorted key _
    (mergePairs_mem_sorted key _ (fun r hr => (runsOf_mem key l r hr).1))

theorem sort_pass_exit_sorted (key : α → Nat) (l : List α)
    (h : (sort_pass key l).2 ≤ 1) : KeySorted key (sort_pass key l).1 := by
  have hs := mergePairs_mem_sorted key (runsOf key l)
    (fun r hr => (runsOf_mem key l r hr).1)
  have h2 : (mergePairs key (runsOf key l)).length ≤ 1 := by
    rw [sort_pass_eq] at h
    exact h
  rw [sort_pass_eq]
  show KeySorted key (mergePairs key (runsOf key l)).flatten
  cases hm : mergePairs key (runsOf key l) with
  | nil => simp [KeySorted]
  | cons r rs =>
    rw [hm] at h2
    simp only [List.length_cons] at h2
    have hrs : rs = [] := by
      cases rs with
      | nil => rfl
      | cons r' rs' => simp at h2
    subst hrs
    simp only [List.flatten_cons, List.flatten_nil, List.append_nil]
    exact hs r (by rw [hm]; simp)

theorem sort_pass_of_sorted (key : α → Nat) (l : List α) (h : KeySorted key l) :
    (sort_pass key l).1 = l ∧ (sort_pass key l).2 ≤ 1 := by
  cases l with
  | nil => exact ⟨by simp [sort_pass], by simp [sort_pass]⟩
  | cons a t =>
    rw [sort_pass_eq, runsOf_of_sorted_cons key a t h]
    exact ⟨by simp [mergePairs], by simp [mergePairs]⟩

theorem sort_pass_filter (key : α → Nat) (k : Nat) (l : List α) :
    (sort_pass key l).1.filter (fun x => key x == k)
      = l.filter (fun x => key x == k) := by
  rw [sort_pass_eq]
  show (mergePairs key (runsOf key l)).flatten.filter (fun x => key x == k)
      = l.filter (fun x => key x == k)
  rw [mergePairs_filter key k (runsOf key l) (fun r hr => (runsOf_mem key l r hr).1)]
  rw [runsOf_join]

theorem sort_loop_sorted (key : α → Nat) : (fuel : Nat) → (l : List α) →
    runCount key l ≤ fuel → KeySorted key (sort_loop key fuel l)
  | 0, l, h => by
    have hl : l = [] := runCount_eq_zero key l (by omega)
    subst hl
    simp [sort_loop, KeySorted]
  | fuel + 1, l, h => by
    rw [sort_loop]
    by_cases hc : 1 < (sort_pass key l).2
    · rw [if_pos hc]
      refine sort_loop_sorted key fuel (sort_pass key l).1 ?_
      have h1 := sort_pass_runCount_le key l
      have h2 := sort_pass_cnt key l
      omega
    · rw [if_neg hc]
      exact sort_pass_exit_sorted key l (by omega)

theorem sort_loop_perm (key : α → Nat) : (fuel : Nat) → (l : List α) →
    (sort_loop key fuel l).Perm l
  | 0, l => by
    rw [sort_loop]
  | fuel + 1, l => by
    rw [sort_loop]
    by_cases hc : 1 < (sort_pass key l).2
    · rw [if_pos hc]
      exact (sort_loop_perm key fuel (sort_pass key l).1).trans (sort_pass_perm key l)
    · rw [if_neg hc]
      exact sort_pass_perm key l

theorem sort_loop_filter (key : α → Nat) (k : Nat) : (fuel : Nat) → (l : List α) →
    (sort_loop key fuel l).filter (fun x => key x == k)
      = l.filter (fun x => key x == k)
  | 0, l => by rw [sort_loop]
  | fuel + 1, l => by
    rw [sort_loop]
    by_cases hc : 1 < (sort_pass key l).2
    · rw [if_pos hc]
      rw [sort_loop_filter key k fuel (sort_pass key l).1]
      exact sort_pass_filter key k l
    · rw [if_neg hc]
      exact sort_pass_filter key k l

theorem sort_loop_of_sorted (key : α → Nat) : (fuel : Nat) → (l : List α) →
    KeySorted key l → sort_loop key fuel l = l
  | 0, l, _ => by rw [sort_loop]
  | fuel + 1, l, h => by
    rw [sort_loop]
    obtain ⟨h1, h2⟩ := sort_pass_of_sorted key l h
    rw [if_neg (by omega), h1]

/-- C8: list_sort (the natural iterative merge sort of list.c) applied to any
finite list with a comparator given by a key projection (the canonical form
of a strict weak order) produces a nondecreasing permutation of its input, is
idempotent, and is stable: the subsequence of elements at each key value is
exactly the input subsequence at that key. -/
theorem list_sort_spec (key : α → Nat) (l : List α) :
    KeySorted key (list_sort key l) ∧
    (list_sort key l).Perm l ∧
    list_sort key (list_sort key l) = list_sort key l ∧
    ∀ k : Nat, (list_sort key l).filter (fun x => key x == k)
      = l.filter (fun x => key x == k) := by
  have hs : KeySorted key (list_sort key l) :=
    sort_loop_sorted key l.length l (runCount_le_length key l)
  refine ⟨hs, sort_loop_perm key l.length l, ?_,
    fun k => sort_loop_filter key k l.length l⟩
  exact sort_loop_of_sorted key (list_sort key l).length (list_sort key l) hs

end PintosProof
